import Mathlib

/-!
Shallow embedding of the amortization / rate-solving engine of the MtgCalc
repository (src/backend/src/services/mortgageService.js, with the numeric
helpers roundToCents / validateNumber from src/backend/src/utils/mathUtils.js).

Modelling conventions:
* JavaScript numbers are modelled by `JSNum`: either NaN, a signed infinity,
  or an exact rational.  Finite arithmetic is exact (per-operation IEEE-754
  rounding error is not modelled); `Math.pow` additionally overflows to
  Infinity when the exact magnitude of the result reaches `jsOverflow = 2^1024`,
  the first magnitude beyond the IEEE-754 double range.  This is the one place
  where overflow decides control flow in the code under study.  Gradual
  underflow to 0 is not modelled.
* `Math.round` on a finite value agrees exactly with Mathlib's `round`
  (round half towards positive infinity), so `roundToCents` on a finite
  rational is exact.
* The service takes its term argument in years and immediately computes
  `numPayments = termYears * 12`.  The embedding is parameterised directly by
  the resulting integer number of monthly payments `termMonths : ℕ`, the
  quantity the specification's claims range over.
* Thrown `AppError`s are modelled by `Except String`; only the error message
  is kept.
* `calculatePayoffDate` (wall-clock date arithmetic) and the duplicated
  `breakdown` sub-object of `calculateMonthlyPayment` are outside the model;
  no claim mentions them.
-/

/-- Model of a JavaScript number: NaN, a signed infinity (`inf true` is
positive infinity), or a finite value represented exactly as a rational. -/
inductive JSNum where
  | nan : JSNum
  | inf : Bool → JSNum
  | num : ℚ → JSNum
deriving DecidableEq, Repr

namespace JSNum

/-- JavaScript addition. -/
def jsAdd : JSNum → JSNum → JSNum
  | nan, _ => nan
  | _, nan => nan
  | inf p, inf q => if p = q then inf p else nan
  | inf p, num _ => inf p
  | num _, inf q => inf q
  | num a, num b => num (a + b)

/-- JavaScript negation. -/
def jsNeg : JSNum → JSNum
  | nan => nan
  | inf p => inf (!p)
  | num a => num (-a)

/-- JavaScript subtraction. -/
def jsSub : JSNum → JSNum → JSNum
  | nan, _ => nan
  | _, nan => nan
  | inf p, inf q => if p = q then nan else inf p
  | inf p, num _ => inf p
  | num _, inf q => inf (!q)
  | num a, num b => num (a - b)

/-- JavaScript multiplication. -/
def jsMul : JSNum → JSNum → JSNum
  | nan, _ => nan
  | _, nan => nan
  | inf p, inf q => inf (p = q)
  | inf p, num a => if a = 0 then nan else if 0 < a then inf p else inf (!p)
  | num a, inf p => if a = 0 then nan else if 0 < a then inf p else inf (!p)
  | num a, num b => num (a * b)

/-- JavaScript division.  There is no negative zero in the model, so a finite
zero denominator behaves like IEEE +0. -/
def jsDiv : JSNum → JSNum → JSNum
  | nan, _ => nan
  | _, nan => nan
  | inf _, inf _ => nan
  | inf p, num a => if a < 0 then inf (!p) else inf p
  | num _, inf _ => num 0
  | num a, num b =>
      if b = 0 then (if a = 0 then nan else if 0 < a then inf true else inf false)
      else num (a / b)

/-- JavaScript `Math.abs`. -/
def jsAbs : JSNum → JSNum
  | nan => nan
  | inf _ => inf true
  | num a => num |a|

/-- JavaScript `<` (false whenever either side is NaN). -/
def jsLt : JSNum → JSNum → Bool
  | nan, _ => false
  | _, nan => false
  | inf p, inf q => !p && q
  | inf p, num _ => !p
  | num _, inf q => q
  | num a, num b => decide (a < b)

/-- JavaScript `<=` (false whenever either side is NaN). -/
def jsLe : JSNum → JSNum → Bool
  | nan, _ => false
  | _, nan => false
  | inf p, inf q => !p || q
  | inf p, num _ => !p
  | num _, inf q => q
  | num a, num b => decide (a ≤ b)

/-- JavaScript truthiness test on a number: `!x` is true exactly for 0 and
NaN (the service only applies it to numeric `fees`). -/
def jsFalsy : JSNum → Bool
  | nan => true
  | inf _ => false
  | num a => decide (a = 0)

/-- First magnitude beyond the IEEE-754 double range: results of `Math.pow`
whose exact magnitude reaches this bound are modelled as overflowing to
infinity.  (Stated over a natural-number power so that it evaluates in one
step.) -/
def jsOverflow : ℚ := ((2 ^ 1024 : ℕ) : ℚ)

/-- Exponentiation by squaring with a structural fuel argument, so that
concrete powers reduce in logarithmic depth; `sqPow_eq` below shows it is
the monoid power. -/
def sqPow (a : ℚ) : ℕ → ℕ → ℚ
  | 0, _ => 1
  | fuel + 1, n =>
      if n = 0 then 1
      else
        let h := sqPow a fuel (n / 2)
        if n % 2 = 0 then h * h else h * h * a

/-- Kernel-friendly `a ^ n` on rationals. -/
def powQ (a : ℚ) (n : ℕ) : ℚ := sqPow a (n + 1) n

/-- JavaScript `Math.pow` with an integer exponent (the only exponents the
service uses), on exact rationals with overflow to infinity at `jsOverflow`. -/
def jsZpow (b : JSNum) (e : ℤ) : JSNum :=
  if e = 0 then num 1
  else
    match b with
    | nan => nan
    | inf p =>
        if 0 < e then (if p then inf true else (if e % 2 = 0 then inf true else inf false))
        else num 0
    | num a =>
        if a = 0 then (if 0 < e then num 0 else inf true)
        else
          let r : ℚ := if 0 ≤ e then powQ a e.toNat else (powQ a (-e).toNat)⁻¹
          if jsOverflow ≤ |r| then inf (decide (0 < r)) else num r

end JSNum

open JSNum

/-- Rounding of an exact rational as `Math.round (q * 100) / 100` does it:
`Math.round` rounds half towards positive infinity, i.e. to the floor of
`x + 1/2` (which is also Mathlib's `round`; the kernel-computable
`Rat.floor` is used so that concrete schedules evaluate). -/
def roundQ (q : ℚ) : ℚ := (((q * 100 + 1 / 2).floor : ℤ) : ℚ) / 100

/-- mathUtils.roundToCents: non-numbers and NaN become 0; infinities pass
through `Math.round` unchanged; finite values are rounded to cents. -/
def roundToCents : JSNum → JSNum
  | JSNum.nan => JSNum.num 0
  | JSNum.inf p => JSNum.inf p
  | JSNum.num q => JSNum.num (roundQ q)

/-- mathUtils.validateNumber with the default options used by the mortgage
service (`min = 0`, `max = Infinity`, `allowZero = true`): NaN and the
infinities fail the `isNaN` / `isFinite` checks, and a finite value below the
default minimum 0 is rejected. -/
def validateNumber (v : JSNum) (fieldName : String) : Except String Unit :=
  match v with
  | JSNum.nan => .error (fieldName ++ " must be a valid number")
  | JSNum.inf _ => .error (fieldName ++ " must be a valid number")
  | JSNum.num q =>
      if q < 0 then .error (fieldName ++ " cannot be less than 0") else .ok ()

/-- mortgageService.calculatePrincipalAndInterest.  The source validates the
loan amount, rate and term, takes the straight-line branch when the rate is
strictly equal to 0, and otherwise applies the annuity formula
`loanAmount * (r * (1+r)^n) / ((1+r)^n - 1)` with `r` the monthly rate and
`n = termYears * 12 = termMonths`; the result is rounded to cents.  The term
is a nonnegative integer by construction here, so its `validateNumber` call
always succeeds and is omitted. -/
def calculatePrincipalAndInterest (loanAmount annualRate : JSNum) (termMonths : ℕ) :
    Except String JSNum :=
  match validateNumber loanAmount "Loan amount" with
  | .error e => .error e
  | .ok _ =>
  match validateNumber annualRate "Interest rate" with
  | .error e => .error e
  | .ok _ =>
  if annualRate = JSNum.num 0 then
    .ok (roundToCents (jsDiv loanAmount (JSNum.num (termMonths : ℚ))))
  else
    let monthlyRate := jsDiv (jsDiv annualRate (JSNum.num 100)) (JSNum.num 12)
    let pw := jsZpow (jsAdd (JSNum.num 1) monthlyRate) (termMonths : ℤ)
    let monthlyPayment := jsDiv (jsMul loanAmount (jsMul monthlyRate pw)) (jsSub pw (JSNum.num 1))
    .ok (roundToCents monthlyPayment)

/-- One row of the amortization schedule, with the fields the source pushes. -/
structure Entry where
  paymentNumber : ℕ
  paymentAmount : JSNum
  principalPayment : JSNum
  interestPayment : JSNum
  remainingBalance : JSNum
  cumulativePrincipal : JSNum
  cumulativeInterest : JSNum
deriving DecidableEq, Repr

/-- The schedule loop of mortgageService.generateAmortizationSchedule.
`pn` is the 1-based payment number, `fuel` the number of loop iterations left
(`numPayments - pn + 1` at every call), `intSum` the running sum of the
already-emitted interest payments (the source recomputes it with a `reduce`
over the schedule built so far, which equals this accumulator).  The entry is
pushed first and the loop then breaks once the balance is `<= 0`. -/
def amortLoop (monthlyPayment monthlyRate loanAmount : JSNum) (numPayments : ℕ) :
    ℕ → ℕ → JSNum → JSNum → List Entry
  | _, 0, _, _ => []
  | pn, fuel + 1, balance, intSum =>
      let interestPayment := roundToCents (jsMul balance monthlyRate)
      let pp0 := roundToCents (jsSub monthlyPayment interestPayment)
      let principalPayment := if pn == numPayments || jsLt balance pp0 then balance else pp0
      let newBalance := roundToCents (jsSub balance principalPayment)
      let entry : Entry :=
        { paymentNumber := pn
          paymentAmount := roundToCents (jsAdd principalPayment interestPayment)
          principalPayment := principalPayment
          interestPayment := interestPayment
          remainingBalance := newBalance
          cumulativePrincipal := roundToCents (jsSub loanAmount newBalance)
          cumulativeInterest := jsAdd intSum interestPayment }
      entry ::
        (if jsLe newBalance (JSNum.num 0) then []
         else amortLoop monthlyPayment monthlyRate loanAmount numPayments
                (pn + 1) fuel newBalance (jsAdd intSum interestPayment))

/-- mortgageService.generateAmortizationSchedule: validates the inputs,
computes the fixed monthly payment, then runs the per-period loop starting
from `balance = loanAmount` for at most `numPayments` periods. -/
def generateAmortizationSchedule (loanAmount interestRate : JSNum) (termMonths : ℕ) :
    Except String (List Entry) :=
  match validateNumber loanAmount "Loan amount" with
  | .error e => .error e
  | .ok _ =>
  match validateNumber interestRate "Interest rate" with
  | .error e => .error e
  | .ok _ =>
  match calculatePrincipalAndInterest loanAmount interestRate termMonths with
  | .error e => .error e
  | .ok monthlyPayment =>
      let monthlyRate := jsDiv (jsDiv interestRate (JSNum.num 100)) (JSNum.num 12)
      .ok (amortLoop monthlyPayment monthlyRate loanAmount termMonths 1 termMonths
            loanAmount (JSNum.num 0))

/-- The Newton-Raphson loop of mortgageService.calculateAPR: up to 100
iterations; breaks (returning the current estimate unchanged) once
`|presentValue - adjustedLoanAmount| < 0.0001`; otherwise applies the update
`apr := apr - error / derivative` with the analytic derivative the source
writes.  When the budget is exhausted the last estimate is returned with no
convergence flag or error. -/
def aprLoop (monthlyPayment adjustedLoanAmount : JSNum) (numPayments : ℕ) :
    ℕ → JSNum → JSNum
  | 0, apr => apr
  | fuel + 1, apr =>
      let monthlyAPR := jsDiv (jsDiv apr (JSNum.num 100)) (JSNum.num 12)
      let pv := jsDiv
        (jsMul monthlyPayment
          (jsSub (JSNum.num 1) (jsZpow (jsAdd (JSNum.num 1) monthlyAPR) (-(numPayments : ℤ)))))
        monthlyAPR
      let error := jsSub pv adjustedLoanAmount
      if jsLt (jsAbs error) (JSNum.num (1 / 10000)) then apr
      else
        let derivative := jsDiv
          (jsMul (jsNeg monthlyPayment)
            (jsSub
              (jsDiv
                (jsSub (JSNum.num 1)
                  (jsZpow (jsAdd (JSNum.num 1) monthlyAPR) (-(numPayments : ℤ))))
                (jsZpow monthlyAPR 2))
              (jsDiv
                (jsMul (JSNum.num (numPayments : ℚ))
                  (jsZpow (jsAdd (JSNum.num 1) monthlyAPR) (-(numPayments : ℤ) - 1)))
                monthlyAPR)))
          (JSNum.num 1200)
        aprLoop monthlyPayment adjustedLoanAmount numPayments fuel
          (jsSub apr (jsDiv error derivative))

/-- mortgageService.calculateAPR: validates the inputs, returns the rate
rounded to cents when `fees` is falsy or 0, and otherwise solves for the rate
equating the discounted payment stream with `loanAmount - fees`, starting the
iteration from the nominal rate and rounding the final estimate to cents. -/
def calculateAPR (loanAmount interestRate : JSNum) (termMonths : ℕ) (fees : JSNum) :
    Except String JSNum :=
  match validateNumber loanAmount "Loan amount" with
  | .error e => .error e
  | .ok _ =>
  match validateNumber interestRate "Interest rate" with
  | .error e => .error e
  | .ok _ =>
  if jsFalsy fees || fees == JSNum.num 0 then
    .ok (roundToCents interestRate)
  else
    let adjustedLoanAmount := jsSub loanAmount fees
    match calculatePrincipalAndInterest loanAmount interestRate termMonths with
    | .error e => .error e
    | .ok monthlyPayment =>
        .ok (roundToCents (aprLoop monthlyPayment adjustedLoanAmount termMonths 100 interestRate))

/-- Output structure of mortgageService.calculateMonthlyPayment (the
`breakdown` sub-object, which repeats these fields, is omitted). -/
structure MonthlyPayment where
  principalAndInterest : JSNum
  propertyTax : JSNum
  insurance : JSNum
  pmi : JSNum
  hoaFees : JSNum
  totalMonthlyPayment : JSNum
deriving DecidableEq, Repr

/-- JavaScript `x || 0` on a numeric field: falsy values are replaced by 0. -/
def jsOr0 (x : JSNum) : JSNum := if jsFalsy x then JSNum.num 0 else x

/-- mortgageService.calculateMonthlyPayment: P&I plus monthly shares of the
recurring costs, each rounded to cents. -/
def calculateMonthlyPayment (loanAmount interestRate : JSNum) (termMonths : ℕ)
    (propertyTax insurance pmi hoaFees : JSNum) : Except String MonthlyPayment :=
  match calculatePrincipalAndInterest loanAmount interestRate termMonths with
  | .error e => .error e
  | .ok principalAndInterest =>
      let monthlyPropertyTax := roundToCents (jsDiv (jsOr0 propertyTax) (JSNum.num 12))
      let monthlyInsurance := roundToCents (jsDiv (jsOr0 insurance) (JSNum.num 12))
      let monthlyPMI := roundToCents (jsOr0 pmi)
      let monthlyHOA := roundToCents (jsOr0 hoaFees)
      let totalMonthlyPayment :=
        jsAdd (jsAdd (jsAdd (jsAdd principalAndInterest monthlyPropertyTax) monthlyInsurance)
          monthlyPMI) monthlyHOA
      .ok { principalAndInterest := principalAndInterest
            propertyTax := monthlyPropertyTax
            insurance := monthlyInsurance
            pmi := monthlyPMI
            hoaFees := monthlyHOA
            totalMonthlyPayment := roundToCents totalMonthlyPayment }

/-- The `totals` object of the loan summary.  The source object literal
assigns `totalPayments` twice (first `totalMonthlyPayment * loanTerm * 12`,
then the schedule-summed P&I figure); under JavaScript duplicate-key
semantics the second assignment wins, which is what the single field here
holds. -/
structure LoanTotals where
  totalPayments : JSNum
  totalInterest : JSNum
  totalPrincipal : JSNum
  totalCost : JSNum
deriving DecidableEq, Repr

/-- The `loanDetails` object of the loan summary. -/
structure LoanDetails where
  loanAmount : JSNum
  interestRate : JSNum
  apr : JSNum
  termMonths : ℕ
  fees : JSNum
deriving DecidableEq, Repr

/-- Output structure of mortgageService.getLoanSummary (the wall-clock
`payoffDate` and the always-null `monthlyPaymentToIncome` are omitted). -/
structure LoanSummary where
  loanDetails : LoanDetails
  monthlyPayment : MonthlyPayment
  totals : LoanTotals
  interestPercentage : JSNum
  firstPaymentBreakdown : Option Entry
deriving DecidableEq, Repr

/-- mortgageService.getLoanSummary: composes the monthly payment, the full
schedule, its interest and P&I sums (the source's `reduce` calls), and the
APR.  The discarded first `totalPayments` assignment
(`totalMonthlyPayment * loanTerm * 12`) is evaluated and then overwritten by
the schedule-summed figure, as in the source. -/
def getLoanSummary (loanAmount interestRate : JSNum) (termMonths : ℕ)
    (propertyTax insurance pmi hoaFees fees : JSNum) : Except String LoanSummary :=
  match calculateMonthlyPayment loanAmount interestRate termMonths
      propertyTax insurance pmi hoaFees with
  | .error e => .error e
  | .ok monthlyPayment =>
  match generateAmortizationSchedule loanAmount interestRate termMonths with
  | .error e => .error e
  | .ok schedule =>
      let totalInterest :=
        schedule.foldl (fun s p => jsAdd s p.interestPayment) (JSNum.num 0)
      let totalPaymentsFirst :=
        jsMul monthlyPayment.totalMonthlyPayment (JSNum.num (termMonths : ℚ))
      let totalPrincipalAndInterestPaid :=
        schedule.foldl (fun s p => jsAdd s p.paymentAmount) (JSNum.num 0)
      match calculateAPR loanAmount interestRate termMonths (jsOr0 fees) with
      | .error e => .error e
      | .ok apr =>
          .ok { loanDetails :=
                  { loanAmount := loanAmount
                    interestRate := interestRate
                    apr := apr
                    termMonths := termMonths
                    fees := jsOr0 fees }
                monthlyPayment := monthlyPayment
                totals :=
                  { totalPayments :=
                      -- duplicate key in the source: roundToCents totalPaymentsFirst is
                      -- computed and then overwritten by the second assignment below
                      (fun _ => roundToCents totalPrincipalAndInterestPaid) totalPaymentsFirst
                    totalInterest := roundToCents totalInterest
                    totalPrincipal := loanAmount
                    totalCost :=
                      roundToCents (jsAdd (jsAdd loanAmount totalInterest) (jsOr0 fees)) }
                interestPercentage :=
                  roundToCents (jsMul (jsDiv totalInterest loanAmount) (JSNum.num 100))
                firstPaymentBreakdown := schedule.head? }

/-- mortgageService.findBestLoan: `comparisons.reduce` keeps the incumbent
unless the current scenario's `totals.totalCost` is strictly smaller.
JavaScript `reduce` with no initial value starts from the first element and
throws on an empty array, modelled by `none`. -/
def findBestLoan (comparisons : List LoanSummary) : Option LoanSummary :=
  match comparisons with
  | [] => none
  | first :: rest =>
      some (rest.foldl
        (fun best current =>
          if jsLt current.totals.totalCost best.totals.totalCost then current else best)
        first)

deriving instance DecidableEq for Except

/-! ### Basic facts about cent rounding -/

theorem ratFloor_eq_intFloor (a : ℚ) : a.floor = ⌊a⌋ := by
  rw [Rat.floor_def, Rat.floor_def']

/-- The model's rounding agrees with Mathlib's round-half-up. -/
theorem roundQ_eq_round (q : ℚ) : roundQ q = ((round (q * 100) : ℤ) : ℚ) / 100 := by
  rw [roundQ, round_eq, ratFloor_eq_intFloor]

/-- A rational is a whole number of cents. -/
def isCent (q : ℚ) : Prop := ∃ z : ℤ, q = (z : ℚ) / 100

theorem isCent_roundQ (q : ℚ) : isCent (roundQ q) := ⟨(q * 100 + 1 / 2).floor, rfl⟩

theorem isCent_zero : isCent 0 := ⟨0, by norm_num⟩

theorem isCent.add {a b : ℚ} (ha : isCent a) (hb : isCent b) : isCent (a + b) := by
  obtain ⟨x, rfl⟩ := ha; obtain ⟨y, rfl⟩ := hb
  exact ⟨x + y, by push_cast; ring⟩

theorem isCent.sub {a b : ℚ} (ha : isCent a) (hb : isCent b) : isCent (a - b) := by
  obtain ⟨x, rfl⟩ := ha; obtain ⟨y, rfl⟩ := hb
  exact ⟨x - y, by push_cast; ring⟩

theorem roundQ_eq_self {q : ℚ} (h : isCent q) : roundQ q = q := by
  obtain ⟨z, rfl⟩ := h
  have h100 : ((z : ℚ) / 100) * 100 = (z : ℚ) := by field_simp
  rw [roundQ_eq_round, h100, round_intCast]

theorem roundQ_mono {a b : ℚ} (h : a ≤ b) : roundQ a ≤ roundQ b := by
  have h1 : round (a * 100) ≤ round (b * 100) := by
    rw [round_eq, round_eq]
    exact Int.floor_le_floor (by linarith)
  have h2 : ((round (a * 100) : ℤ) : ℚ) ≤ ((round (b * 100) : ℤ) : ℚ) := by exact_mod_cast h1
  rw [roundQ_eq_round, roundQ_eq_round]
  linarith

theorem abs_roundQ_sub (q : ℚ) : |roundQ q - q| ≤ 1 / 200 := by
  have h := abs_sub_round (q * 100)
  have heq : roundQ q - q = -((q * 100 - (round (q * 100) : ℤ)) / 100) := by
    rw [roundQ_eq_round]; ring
  rw [heq, abs_neg, abs_div]
  have : |(100 : ℚ)| = 100 := by norm_num
  rw [this]
  linarith

theorem roundQ_le_add (q : ℚ) : roundQ q ≤ q + 1 / 200 := by
  have h := abs_roundQ_sub q
  have := abs_le.mp h
  linarith [this.2]

theorem sub_le_roundQ (q : ℚ) : q - 1 / 200 ≤ roundQ q := by
  have h := abs_roundQ_sub q
  have := abs_le.mp h
  linarith [this.1]

theorem roundQ_nonneg {q : ℚ} (h : 0 ≤ q) : 0 ≤ roundQ q := by
  have h0 : roundQ 0 = 0 := by rw [roundQ_eq_round]; simp
  have := roundQ_mono h
  rw [h0] at this
  exact this

theorem roundQ_zero : roundQ 0 = 0 := by rw [roundQ_eq_round]; simp

theorem isCent_sum : ∀ {l : List ℚ}, (∀ x ∈ l, isCent x) → isCent l.sum
  | [], _ => by simpa using isCent_zero
  | a :: l, h => by
      rw [List.sum_cons]
      exact (h a (List.mem_cons_self a l)).add
        (isCent_sum fun x hx => h x (List.mem_cons_of_mem a hx))

/-! ### Reduction of the JavaScript operations on finite values -/

@[simp] theorem jsAdd_num (a b : ℚ) : jsAdd (JSNum.num a) (JSNum.num b) = JSNum.num (a + b) := rfl

@[simp] theorem jsSub_num (a b : ℚ) : jsSub (JSNum.num a) (JSNum.num b) = JSNum.num (a - b) := rfl

@[simp] theorem jsMul_num (a b : ℚ) : jsMul (JSNum.num a) (JSNum.num b) = JSNum.num (a * b) := rfl

@[simp] theorem roundToCents_num (q : ℚ) :
    roundToCents (JSNum.num q) = JSNum.num (roundQ q) := rfl

@[simp] theorem jsLt_num (a b : ℚ) :
    jsLt (JSNum.num a) (JSNum.num b) = decide (a < b) := rfl

@[simp] theorem jsLe_num (a b : ℚ) :
    jsLe (JSNum.num a) (JSNum.num b) = decide (a ≤ b) := rfl

theorem jsDiv_num {b : ℚ} (a : ℚ) (hb : b ≠ 0) :
    jsDiv (JSNum.num a) (JSNum.num b) = JSNum.num (a / b) := by
  simp [jsDiv, hb]

theorem validateNumber_ok {q : ℚ} (h : 0 ≤ q) (s : String) :
    validateNumber (JSNum.num q) s = .ok () := by
  simp [validateNumber, not_lt.mpr h]

theorem sqPow_eq (a : ℚ) : ∀ fuel n, n ≤ fuel → sqPow a fuel n = a ^ n := by
  intro fuel
  induction fuel with
  | zero =>
      intro n hn
      have h0 : n = 0 := by omega
      subst h0
      simp [sqPow]
  | succ f ih =>
      intro n hn
      by_cases h0 : n = 0
      · subst h0; simp [sqPow]
      · rw [sqPow, if_neg h0]
        have h2 : n / 2 ≤ f := by omega
        rw [ih (n / 2) h2]
        by_cases he : n % 2 = 0
        · rw [if_pos he, ← pow_add]
          congr 1
          omega
        · rw [if_neg he, ← pow_add, ← pow_succ]
          congr 1
          omega

theorem powQ_eq (a : ℚ) (n : ℕ) : powQ a n = a ^ n := sqPow_eq a (n + 1) n (by omega)

theorem jsZpow_num {a : ℚ} (ha : ¬(a = 0)) {e : ℤ} (he : ¬(e = 0)) :
    jsZpow (JSNum.num a) e =
      if jsOverflow ≤ |a ^ e| then JSNum.inf (decide (0 < a ^ e)) else JSNum.num (a ^ e) := by
  have hr : (if 0 ≤ e then powQ a e.toNat else (powQ a (-e).toNat)⁻¹) = a ^ e := by
    by_cases h : 0 ≤ e
    · rw [if_pos h, powQ_eq, ← zpow_natCast, Int.toNat_of_nonneg h]
    · rw [if_neg h, powQ_eq, ← zpow_natCast, Int.toNat_of_nonneg (by omega : (0 : ℤ) ≤ -e),
        ← zpow_neg, neg_neg]
  simp only [jsZpow, if_neg he, if_neg ha, hr]

/-! ### Rational-level view of one schedule-loop iteration -/

/-- Interest portion of one period at balance `b` and monthly rate `r`,
as the loop computes it. -/
def stepInterest (r b : ℚ) : ℚ := roundQ (b * r)

/-- Principal portion of one period, including the final-period / overshoot
correction of the loop. -/
def stepPrincipal (m r : ℚ) (n pn : ℕ) (b : ℚ) : ℚ :=
  if pn = n ∨ b < roundQ (m - stepInterest r b) then b else roundQ (m - stepInterest r b)

/-- Balance after one period. -/
def stepBalance (m r : ℚ) (n pn : ℕ) (b : ℚ) : ℚ :=
  roundQ (b - stepPrincipal m r n pn b)

/-- Unfolding of one iteration of the schedule loop when the payment, rate
and balance are finite: everything stays finite and is described by the
rational step functions. -/
theorem amortLoop_cons (m r la : ℚ) (n pn fuel : ℕ) (b s : ℚ) :
    amortLoop (JSNum.num m) (JSNum.num r) (JSNum.num la) n pn (fuel + 1)
        (JSNum.num b) (JSNum.num s) =
      { paymentNumber := pn
        paymentAmount := JSNum.num (roundQ (stepPrincipal m r n pn b + stepInterest r b))
        principalPayment := JSNum.num (stepPrincipal m r n pn b)
        interestPayment := JSNum.num (stepInterest r b)
        remainingBalance := JSNum.num (stepBalance m r n pn b)
        cumulativePrincipal := JSNum.num (roundQ (la - stepBalance m r n pn b))
        cumulativeInterest := JSNum.num (s + stepInterest r b) } ::
      (if stepBalance m r n pn b ≤ 0 then []
       else amortLoop (JSNum.num m) (JSNum.num r) (JSNum.num la) n (pn + 1) fuel
              (JSNum.num (stepBalance m r n pn b)) (JSNum.num (s + stepInterest r b))) := by
  show (let interestPayment := roundToCents (jsMul (JSNum.num b) (JSNum.num r))
        let pp0 := roundToCents (jsSub (JSNum.num m) interestPayment)
        let principalPayment :=
          if pn == n || jsLt (JSNum.num b) pp0 then JSNum.num b else pp0
        let newBalance := roundToCents (jsSub (JSNum.num b) principalPayment)
        let entry : Entry :=
          { paymentNumber := pn
            paymentAmount := roundToCents (jsAdd principalPayment interestPayment)
            principalPayment := principalPayment
            interestPayment := interestPayment
            remainingBalance := newBalance
            cumulativePrincipal := roundToCents (jsSub (JSNum.num la) newBalance)
            cumulativeInterest := jsAdd (JSNum.num s) interestPayment }
        entry ::
          (if jsLe newBalance (JSNum.num 0) then []
           else amortLoop (JSNum.num m) (JSNum.num r) (JSNum.num la) n
                  (pn + 1) fuel newBalance (jsAdd (JSNum.num s) interestPayment))) = _
  simp only [jsMul_num, roundToCents_num, jsSub_num, jsAdd_num, jsLt_num, jsLe_num]
  by_cases h : pn = n ∨ b < roundQ (m - roundQ (b * r))
  · have hb : (pn == n || decide (b < roundQ (m - roundQ (b * r)))) = true := by
      rcases h with h | h
      · simp [h]
      · simp [h]
    simp only [hb, if_true, stepPrincipal, stepInterest, stepBalance, if_pos h]
    by_cases h2 : roundQ (b - b) ≤ 0
    · simp [h2]
    · simp [h2]
  · have hb : (pn == n || decide (b < roundQ (m - roundQ (b * r)))) = false := by
      push_neg at h
      simp [h.1, h.2, not_lt.mpr h.2]
    simp only [hb, Bool.false_eq_true, if_false, stepPrincipal, stepInterest, stepBalance,
      if_neg h]
    by_cases h2 : roundQ (b - roundQ (m - roundQ (b * r))) ≤ 0
    · simp [h2]
    · simp [h2]

theorem isCent_stepInterest (r b : ℚ) : isCent (stepInterest r b) := isCent_roundQ _

theorem stepBalance_nonneg (m r : ℚ) (n pn : ℕ) (b : ℚ) :
    0 ≤ stepBalance m r n pn b := by
  rw [stepBalance, stepPrincipal]
  by_cases h : pn = n ∨ b < roundQ (m - stepInterest r b)
  · rw [if_pos h, sub_self, roundQ_zero]
  · rw [if_neg h]
    push_neg at h
    exact roundQ_nonneg (by linarith [h.2])

theorem isCent_stepPrincipal (m r : ℚ) (n pn : ℕ) {b : ℚ} (hb : isCent b) :
    isCent (stepPrincipal m r n pn b) := by
  rw [stepPrincipal]
  by_cases h : pn = n ∨ b < roundQ (m - stepInterest r b)
  · rw [if_pos h]; exact hb
  · rw [if_neg h]; exact isCent_roundQ _

theorem isCent_stepBalance (m r : ℚ) (n pn : ℕ) (b : ℚ) :
    isCent (stepBalance m r n pn b) := isCent_roundQ _

theorem stepBalance_eq_sub (m r : ℚ) (n pn : ℕ) {b : ℚ} (hb : isCent b) :
    stepBalance m r n pn b = b - stepPrincipal m r n pn b := by
  rw [stepBalance]
  exact roundQ_eq_self (hb.sub (isCent_stepPrincipal m r n pn hb))

/-- When the rounded payment `m` is a whole number of cents at least the
rounded interest of the current period, the principal portion is
nonnegative. -/
theorem stepPrincipal_nonneg (n pn : ℕ) {m r b : ℚ} (hb : 0 ≤ b) (hm : isCent m)
    (hi : stepInterest r b ≤ m) : 0 ≤ stepPrincipal m r n pn b := by
  rw [stepPrincipal]
  by_cases h : pn = n ∨ b < roundQ (m - stepInterest r b)
  · rw [if_pos h]; exact hb
  · rw [if_neg h]
    have : roundQ (m - stepInterest r b) = m - stepInterest r b :=
      roundQ_eq_self (hm.sub (isCent_stepInterest r b))
    rw [this]
    linarith

/-- The schedule loop, started anywhere inside its admissible range with a
nonnegative finite balance, emits at least one entry and its last emitted
entry has remaining balance exactly 0 (either the early `balance <= 0` break
fires on a balance that is also nonnegative, or the final-period correction
forces the balance to 0). -/
theorem amortLoop_last_zero (m r la : ℚ) (n : ℕ) :
    ∀ fuel pn (b s : ℚ), pn + fuel = n + 1 → pn ≤ n → 0 ≤ b →
      amortLoop (JSNum.num m) (JSNum.num r) (JSNum.num la) n pn fuel
          (JSNum.num b) (JSNum.num s) ≠ [] ∧
      ((amortLoop (JSNum.num m) (JSNum.num r) (JSNum.num la) n pn fuel
          (JSNum.num b) (JSNum.num s)).getLast?).map Entry.remainingBalance =
        some (JSNum.num 0) := by
  intro fuel
  induction fuel with
  | zero => intro pn b s hfuel hpn hb; omega
  | succ f ih =>
      intro pn b s hfuel hpn hb
      rw [amortLoop_cons]
      by_cases hfin : pn = n
      · have hp : stepPrincipal m r n pn b = b := by rw [stepPrincipal, if_pos (Or.inl hfin)]
        have hnb : stepBalance m r n pn b = 0 := by
          rw [stepBalance, hp, sub_self, roundQ_zero]
        rw [hnb]
        simp
      · have hf : 1 ≤ f := by omega
        by_cases hstop : stepBalance m r n pn b ≤ 0
        · have hnb : stepBalance m r n pn b = 0 :=
            le_antisymm hstop (stepBalance_nonneg m r n pn b)
          rw [if_pos hstop, hnb]
          simp
        · rw [if_neg hstop]
          have hnb : 0 ≤ stepBalance m r n pn b := stepBalance_nonneg m r n pn b
          obtain ⟨hne, hlast⟩ := ih (pn + 1) (stepBalance m r n pn b)
            (s + stepInterest r b) (by omega) (by omega) hnb
          refine ⟨by simp, ?_⟩
          cases hrest : amortLoop (JSNum.num m) (JSNum.num r) (JSNum.num la) n (pn + 1) f
              (JSNum.num (stepBalance m r n pn b)) (JSNum.num (s + stepInterest r b)) with
          | nil => exact absurd hrest hne
          | cons x t =>
              rw [hrest] at hlast
              rw [List.getLast?_cons_cons]
              exact hlast

/-- Started on a whole-cent nonnegative balance `b` inside its admissible
range, the schedule loop emits principal portions summing exactly to `b`
(all per-entry arithmetic is then exact in cents), and payment amounts
summing exactly to principal plus interest. -/
theorem amortLoop_sums (m r la : ℚ) (n : ℕ) :
    ∀ fuel pn (b s : ℚ), pn + fuel = n + 1 → pn ≤ n → 0 ≤ b → isCent b →
      ∃ ps is pa : List ℚ,
        (amortLoop (JSNum.num m) (JSNum.num r) (JSNum.num la) n pn fuel
            (JSNum.num b) (JSNum.num s)).map Entry.principalPayment = ps.map JSNum.num ∧
        (amortLoop (JSNum.num m) (JSNum.num r) (JSNum.num la) n pn fuel
            (JSNum.num b) (JSNum.num s)).map Entry.interestPayment = is.map JSNum.num ∧
        (amortLoop (JSNum.num m) (JSNum.num r) (JSNum.num la) n pn fuel
            (JSNum.num b) (JSNum.num s)).map Entry.paymentAmount = pa.map JSNum.num ∧
        ps.sum = b ∧ pa.sum = ps.sum + is.sum ∧
        (∀ x ∈ is, isCent x) ∧ (∀ x ∈ pa, isCent x) := by
  intro fuel
  induction fuel with
  | zero => intro pn b s hfuel hpn hb hbc; omega
  | succ f ih =>
      intro pn b s hfuel hpn hb hbc
      rw [amortLoop_cons]
      have hpc : isCent (stepPrincipal m r n pn b) := isCent_stepPrincipal m r n pn hbc
      have hic : isCent (stepInterest r b) := isCent_stepInterest r b
      have hnb : stepBalance m r n pn b = b - stepPrincipal m r n pn b :=
        stepBalance_eq_sub m r n pn hbc
      have hpay : roundQ (stepPrincipal m r n pn b + stepInterest r b) =
          stepPrincipal m r n pn b + stepInterest r b :=
        roundQ_eq_self (hpc.add hic)
      by_cases hstop : stepBalance m r n pn b ≤ 0
      · have hzero : stepBalance m r n pn b = 0 :=
          le_antisymm hstop (stepBalance_nonneg m r n pn b)
        have hpb : stepPrincipal m r n pn b = b := by
          have := hnb; rw [hzero] at this; linarith
        refine ⟨[stepPrincipal m r n pn b], [stepInterest r b],
          [stepPrincipal m r n pn b + stepInterest r b], ?_, ?_, ?_, ?_, ?_, ?_, ?_⟩
        · simp [hstop]
        · simp [hstop]
        · simp [hstop, hpay]
        · simpa using hpb
        · simp
        · simpa using hic
        · simpa using hpc.add hic
      · have hne : pn ≠ n := by
          intro hpn'
          apply hstop
          have : stepPrincipal m r n pn b = b := by rw [stepPrincipal, if_pos (Or.inl hpn')]
          rw [hnb, this, sub_self]
        obtain ⟨ps', is', pa', hmp, hmi, hma, hsum, hpaysum, hisc, hpac⟩ :=
          ih (pn + 1) (stepBalance m r n pn b) (s + stepInterest r b)
            (by omega) (by omega) (stepBalance_nonneg m r n pn b) (isCent_stepBalance m r n pn b)
        refine ⟨stepPrincipal m r n pn b :: ps', stepInterest r b :: is',
          (stepPrincipal m r n pn b + stepInterest r b) :: pa', ?_, ?_, ?_, ?_, ?_, ?_, ?_⟩
        · simp [hstop, hmp]
        · simp [hstop, hmi]
        · simp [hstop, hpay, hma]
        · rw [List.sum_cons, hsum, hnb]; ring
        · rw [List.sum_cons, List.sum_cons, List.sum_cons, hpaysum]; ring
        · intro x hx
          rcases List.mem_cons.mp hx with h | h
          · rw [h]; exact hic
          · exact hisc x h
        · intro x hx
          rcases List.mem_cons.mp hx with h | h
          · rw [h]; exact hpc.add hic
          · exact hpac x h

/-- Started on a whole-cent balance `b` with `0 ≤ b ≤ B`, where the
whole-cent payment `m` is at least the rounded interest on `B`, the loop's
emitted balances are all finite, at most `b`, and non-increasing. -/
theorem amortLoop_chain (la : ℚ) (n : ℕ) {m r B : ℚ} (hr : 0 ≤ r) (hm : isCent m)
    (hB : roundQ (B * r) ≤ m) :
    ∀ fuel pn (b s : ℚ), 0 ≤ b → b ≤ B → isCent b →
      ∃ bs : List ℚ,
        (amortLoop (JSNum.num m) (JSNum.num r) (JSNum.num la) n pn fuel
            (JSNum.num b) (JSNum.num s)).map Entry.remainingBalance = bs.map JSNum.num ∧
        bs.Chain' (fun x y => y ≤ x) ∧ ∀ x ∈ bs, x ≤ b := by
  intro fuel
  induction fuel with
  | zero =>
      intro pn b s hb hbB hbc
      exact ⟨[], by simp [amortLoop], by simp, by simp⟩
  | succ f ih =>
      intro pn b s hb hbB hbc
      rw [amortLoop_cons]
      have hi : stepInterest r b ≤ m := by
        refine le_trans ?_ hB
        exact roundQ_mono (mul_le_mul_of_nonneg_right hbB hr)
      have hp : 0 ≤ stepPrincipal m r n pn b := stepPrincipal_nonneg n pn hb hm hi
      have hnb : stepBalance m r n pn b = b - stepPrincipal m r n pn b :=
        stepBalance_eq_sub m r n pn hbc
      have hnb_le : stepBalance m r n pn b ≤ b := by rw [hnb]; linarith
      have hnb_nonneg : 0 ≤ stepBalance m r n pn b := stepBalance_nonneg m r n pn b
      by_cases hstop : stepBalance m r n pn b ≤ 0
      · refine ⟨[stepBalance m r n pn b], by simp [hstop], by simp, ?_⟩
        simpa using hnb_le
      · obtain ⟨bs', hmap, hchain, hle⟩ :=
          ih (pn + 1) (stepBalance m r n pn b) (s + stepInterest r b)
            hnb_nonneg (le_trans hnb_le hbB) (isCent_stepBalance m r n pn b)
        refine ⟨stepBalance m r n pn b :: bs', by simp [hstop, hmap], ?_, ?_⟩
        · refine List.Chain'.cons' hchain ?_
          intro y hy
          exact hle y (List.mem_of_mem_head? hy)
        · intro x hx
          rcases List.mem_cons.mp hx with h | h
          · rw [h]; exact hnb_le
          · exact le_trans (hle x h) hnb_le

/-- For valid finite inputs the payment computation never throws past
validation and always produces a finite cent-rounded value: the zero-rate
branch rounds `P / n`, the annuity branch rounds the formula value, and when
the power overflows the NaN produced by `Infinity / Infinity` is converted
to 0 by `roundToCents`. -/
theorem calculatePrincipalAndInterest_ok {P r : ℚ} (n : ℕ) (hP : 0 ≤ P) (hr : 0 ≤ r)
    (hn : 1 ≤ n) :
    ∃ y : ℚ, calculatePrincipalAndInterest (JSNum.num P) (JSNum.num r) n =
      .ok (JSNum.num (roundQ y)) := by
  have hn0 : ((n : ℚ)) ≠ 0 := by
    have : (0 : ℚ) < (n : ℚ) := by exact_mod_cast hn
    linarith
  simp only [calculatePrincipalAndInterest, validateNumber_ok hP, validateNumber_ok hr]
  by_cases h0 : r = 0
  · subst h0
    simp only [if_pos rfl]
    rw [jsDiv_num P hn0, roundToCents_num]
    exact ⟨P / (n : ℚ), rfl⟩
  · have hcond : ¬(JSNum.num r = JSNum.num 0) := by
      intro h; exact h0 (by injection h)
    simp only [if_neg hcond]
    have hr' : 0 < r / 100 / 12 := by positivity
    rw [jsDiv_num r (by norm_num : (100 : ℚ) ≠ 0), jsDiv_num (r / 100) (by norm_num : (12 : ℚ) ≠ 0),
      jsAdd_num]
    have hbase : (0 : ℚ) < 1 + r / 100 / 12 := by linarith
    have hxpos : (0 : ℚ) < (1 + r / 100 / 12) ^ (n : ℤ) := zpow_pos hbase _
    have hne : ((n : ℤ)) ≠ 0 := by exact_mod_cast Nat.one_le_iff_ne_zero.mp hn
    by_cases hov : jsOverflow ≤ |(1 + r / 100 / 12) ^ (n : ℤ)|
    · have hpw : jsZpow (JSNum.num (1 + r / 100 / 12)) (n : ℤ) = JSNum.inf true := by
        rw [jsZpow_num (by linarith : ¬(1 + r / 100 / 12 = 0)) hne, if_pos hov,
          decide_eq_true hxpos]
      rw [hpw]
      have hm1 : jsMul (JSNum.num (r / 100 / 12)) (JSNum.inf true) = JSNum.inf true := by
        simp [jsMul, hr', ne_of_gt hr']
      rw [hm1]
      rcases eq_or_lt_of_le hP with hP0 | hP0
      · have hm2 : jsMul (JSNum.num P) (JSNum.inf true) = JSNum.nan := by
          simp [jsMul, hP0.symm]
        rw [hm2]
        exact ⟨0, by simp [jsSub, jsDiv, roundToCents, roundQ_zero]⟩
      · have hm2 : jsMul (JSNum.num P) (JSNum.inf true) = JSNum.inf true := by
          simp [jsMul, hP0, ne_of_gt hP0]
        rw [hm2]
        exact ⟨0, by simp [jsSub, jsDiv, roundToCents, roundQ_zero]⟩
    · have hpw : jsZpow (JSNum.num (1 + r / 100 / 12)) (n : ℤ) =
          JSNum.num ((1 + r / 100 / 12) ^ (n : ℤ)) := by
        rw [jsZpow_num (by linarith : ¬(1 + r / 100 / 12 = 0)) hne, if_neg hov]
      rw [hpw, jsMul_num, jsMul_num, jsSub_num]
      have hx1 : 1 < (1 + r / 100 / 12) ^ (n : ℤ) := by
        rw [zpow_natCast]
        exact one_lt_pow₀ (by linarith) (Nat.one_le_iff_ne_zero.mp hn)
      rw [jsDiv_num _ (by linarith : (1 + r / 100 / 12) ^ (n : ℤ) - 1 ≠ 0), roundToCents_num]
      exact ⟨_, rfl⟩

/-- The monthly payment produced for valid finite inputs is a whole number
of cents. -/
theorem calculatePrincipalAndInterest_isCent {P r m : ℚ} {n : ℕ} (hP : 0 ≤ P) (hr : 0 ≤ r)
    (hn : 1 ≤ n)
    (hmp : calculatePrincipalAndInterest (JSNum.num P) (JSNum.num r) n = .ok (JSNum.num m)) :
    isCent m := by
  obtain ⟨y, hy⟩ := calculatePrincipalAndInterest_ok n hP hr hn
  rw [hmp] at hy
  have : JSNum.num m = JSNum.num (roundQ y) := by injection hy
  have hm : m = roundQ y := by injection this
  rw [hm]
  exact isCent_roundQ y

/-- Unfolding of generateAmortizationSchedule for validated finite inputs. -/
theorem generateAmortizationSchedule_eq {P r : ℚ} {n : ℕ} {mp : JSNum} (hP : 0 ≤ P) (hr : 0 ≤ r)
    (hmp : calculatePrincipalAndInterest (JSNum.num P) (JSNum.num r) n = .ok mp) :
    generateAmortizationSchedule (JSNum.num P) (JSNum.num r) n =
      .ok (amortLoop mp (JSNum.num (r / 100 / 12)) (JSNum.num P) n 1 n
        (JSNum.num P) (JSNum.num 0)) := by
  simp only [generateAmortizationSchedule, validateNumber_ok hP, validateNumber_ok hr, hmp]
  rw [jsDiv_num r (by norm_num : (100 : ℚ) ≠ 0), jsDiv_num (r / 100) (by norm_num : (12 : ℚ) ≠ 0)]

/-- For every valid finite input the schedule is produced, is nonempty, and
its last entry's remaining balance is exactly 0. -/
theorem gen_last_zero {P r : ℚ} {n : ℕ} (hP : 0 ≤ P) (hr : 0 ≤ r) (hn : 1 ≤ n) :
    ∃ l, generateAmortizationSchedule (JSNum.num P) (JSNum.num r) n = .ok l ∧ l ≠ [] ∧
      (l.getLast?).map Entry.remainingBalance = some (JSNum.num 0) := by
  obtain ⟨y, hy⟩ := calculatePrincipalAndInterest_ok n hP hr hn
  obtain ⟨hne, hlast⟩ :=
    amortLoop_last_zero (roundQ y) (r / 100 / 12) P n n 1 P 0 (by omega) hn hP
  exact ⟨_, generateAmortizationSchedule_eq hP hr hy, hne, hlast⟩


/-- For every valid finite input the produced schedule's principal portions
sum to the principal within one cent, its payment amounts sum to principal
plus interest within one cent, and all interest and payment entries are
whole numbers of cents. -/
theorem gen_sums {P r : ℚ} {n : ℕ} (hP : 0 ≤ P) (hr : 0 ≤ r) (hn : 1 ≤ n) :
    ∃ (l : List Entry) (ps is pa : List ℚ),
      generateAmortizationSchedule (JSNum.num P) (JSNum.num r) n = .ok l ∧ l ≠ [] ∧
      l.map Entry.principalPayment = ps.map JSNum.num ∧
      l.map Entry.interestPayment = is.map JSNum.num ∧
      l.map Entry.paymentAmount = pa.map JSNum.num ∧
      |ps.sum - P| ≤ 1 / 100 ∧ |pa.sum - (P + is.sum)| ≤ 1 / 100 ∧
      (∀ x ∈ is, isCent x) ∧ (∀ x ∈ pa, isCent x) := by
  obtain ⟨y, hy⟩ := calculatePrincipalAndInterest_ok n hP hr hn
  have hgen := generateAmortizationSchedule_eq hP hr hy
  obtain ⟨f, rfl⟩ : ∃ f, n = f + 1 := ⟨n - 1, by omega⟩
  rw [amortLoop_cons, zero_add] at hgen
  set m := roundQ y with hm
  set r' := (r : ℚ) / 100 / 12 with hr'def
  set i1 := stepInterest r' P with hi1
  set p1 := stepPrincipal m r' (f + 1) 1 P with hp1
  set nb := stepBalance m r' (f + 1) 1 P with hnbdef
  have hnb_round : nb = roundQ (P - p1) := rfl
  have habs : |nb - (P - p1)| ≤ 1 / 200 := by rw [hnb_round]; exact abs_roundQ_sub _
  have hnb_nonneg : 0 ≤ nb := stepBalance_nonneg m r' (f + 1) 1 P
  by_cases hstop : nb ≤ 0
  · rw [if_pos hstop] at hgen
    have hzero : nb = 0 := le_antisymm hstop hnb_nonneg
    have hp1P : |p1 - P| ≤ 1 / 200 := by
      have h1 := habs
      rw [hzero, zero_sub, abs_neg, abs_sub_comm] at h1
      exact h1
    refine ⟨_, [p1], [i1], [roundQ (p1 + i1)], hgen, List.cons_ne_nil _ _,
      rfl, rfl, rfl, ?_, ?_, ?_, ?_⟩
    · simp only [List.sum_cons, List.sum_nil, add_zero]
      linarith [abs_le.mp hp1P]
    · simp only [List.sum_cons, List.sum_nil, add_zero]
      have hdecomp : roundQ (p1 + i1) - (P + i1) =
          (roundQ (p1 + i1) - (p1 + i1)) + (p1 - P) := by ring
      rw [hdecomp]
      calc |(roundQ (p1 + i1) - (p1 + i1)) + (p1 - P)|
          ≤ |roundQ (p1 + i1) - (p1 + i1)| + |p1 - P| := abs_add _ _
        _ ≤ 1 / 200 + 1 / 200 := add_le_add (abs_roundQ_sub _) hp1P
        _ ≤ 1 / 100 := by norm_num
    · intro x hx
      rw [List.mem_singleton] at hx
      rw [hx]; exact isCent_stepInterest r' P
    · intro x hx
      rw [List.mem_singleton] at hx
      rw [hx]; exact isCent_roundQ _
  · rw [if_neg hstop] at hgen
    have hne1 : (1 : ℕ) ≠ f + 1 := by
      intro h1
      apply hstop
      have : p1 = P := by
        rw [hp1, stepPrincipal, if_pos (Or.inl (by omega))]
      rw [hnb_round, this, sub_self, roundQ_zero]
    obtain ⟨ps', is', pa', hmp', hmi', hma', hsum', hpaysum', hisc', hpac'⟩ :=
      amortLoop_sums m r' P (f + 1) f 2 nb i1 (by omega) (by omega)
        hnb_nonneg (isCent_stepBalance m r' (f + 1) 1 P)
    have hps : |(p1 :: ps').sum - P| ≤ 1 / 200 := by
      have heq : (p1 :: ps').sum - P = nb - (P - p1) := by
        rw [List.sum_cons, hsum']; ring
      rw [heq]; exact habs
    refine ⟨_, p1 :: ps', i1 :: is', roundQ (p1 + i1) :: pa', hgen, List.cons_ne_nil _ _,
      ?_, ?_, ?_, ?_, ?_, ?_, ?_⟩
    · simp only [List.map_cons]
      rw [hmp']
    · simp only [List.map_cons]
      rw [hmi']
    · simp only [List.map_cons]
      rw [hma']
    · linarith [abs_le.mp hps]
    · have hdecomp : (roundQ (p1 + i1) :: pa').sum - (P + (i1 :: is').sum) =
          (roundQ (p1 + i1) - (p1 + i1)) + ((p1 :: ps').sum - P) := by
        simp only [List.sum_cons]
        rw [hpaysum', hsum']
        ring
      rw [hdecomp]
      calc |(roundQ (p1 + i1) - (p1 + i1)) + ((p1 :: ps').sum - P)|
          ≤ |roundQ (p1 + i1) - (p1 + i1)| + |(p1 :: ps').sum - P| := abs_add _ _
        _ ≤ 1 / 200 + 1 / 200 := add_le_add (abs_roundQ_sub _) hps
        _ ≤ 1 / 100 := by norm_num
    · intro x hx
      rcases List.mem_cons.mp hx with h | h
      · rw [h]; exact isCent_stepInterest r' P
      · exact hisc' x h
    · intro x hx
      rcases List.mem_cons.mp hx with h | h
      · rw [h]; exact isCent_roundQ _
      · exact hpac' x h

/-- When the rounded monthly payment covers the rounded interest on
`P + 1/200` (half a cent of headroom over the initial principal, absorbing
the first-period rounding when the principal is not a whole number of
cents), the emitted remaining balances are non-increasing. -/
theorem gen_chain {P r m : ℚ} {n : ℕ} (hP : 0 ≤ P) (hr : 0 ≤ r) (hn : 1 ≤ n)
    (hmp : calculatePrincipalAndInterest (JSNum.num P) (JSNum.num r) n = .ok (JSNum.num m))
    (hcov : roundQ ((P + 1 / 200) * (r / 100 / 12)) ≤ m) :
    ∃ (l : List Entry) (bs : List ℚ),
      generateAmortizationSchedule (JSNum.num P) (JSNum.num r) n = .ok l ∧
      l.map Entry.remainingBalance = bs.map JSNum.num ∧
      bs.Chain' (fun x y => y ≤ x) := by
  have hmc : isCent m := calculatePrincipalAndInterest_isCent hP hr hn hmp
  have hr' : 0 ≤ (r : ℚ) / 100 / 12 := by positivity
  have hgen := generateAmortizationSchedule_eq hP hr hmp
  obtain ⟨f, rfl⟩ : ∃ f, n = f + 1 := ⟨n - 1, by omega⟩
  rw [amortLoop_cons, zero_add] at hgen
  set r'' := (r : ℚ) / 100 / 12 with hr''def
  set i1 := stepInterest r'' P with hi1
  set p1 := stepPrincipal m r'' (f + 1) 1 P with hp1
  set nb := stepBalance m r'' (f + 1) 1 P with hnbdef
  have hi1m : i1 ≤ m := by
    refine le_trans (roundQ_mono ?_) hcov
    exact mul_le_mul_of_nonneg_right (by linarith) hr'
  have hp1n : 0 ≤ p1 := stepPrincipal_nonneg (f + 1) 1 hP hmc hi1m
  have hnb_nonneg : 0 ≤ nb := stepBalance_nonneg m r'' (f + 1) 1 P
  have hnbB : nb ≤ P + 1 / 200 := by
    have h1 : nb ≤ roundQ P := by
      rw [hnbdef, stepBalance]
      exact roundQ_mono (by linarith)
    linarith [roundQ_le_add P]
  by_cases hstop : nb ≤ 0
  · rw [if_pos hstop] at hgen
    exact ⟨_, [nb], hgen, rfl, by simp⟩
  · rw [if_neg hstop] at hgen
    obtain ⟨bs', hmap', hchain', hle'⟩ :=
      amortLoop_chain P (f + 1) hr' hmc hcov f 2 nb i1
        hnb_nonneg hnbB (isCent_stepBalance m r'' (f + 1) 1 P)
    refine ⟨_, nb :: bs', hgen, ?_, ?_⟩
    · simp only [List.map_cons]
      rw [hmap']
    · refine List.Chain'.cons' hchain' ?_
      intro z hz
      exact hle' z (List.mem_of_mem_head? hz)

theorem num_inj {a b : ℚ} (h : JSNum.num a = JSNum.num b) : a = b := by injection h

/-- A `reduce`-style sum of a projection over entries whose projected values
are all finite equals the rational sum. -/
theorem foldl_jsAdd (g : Entry → JSNum) :
    ∀ (l : List Entry) (qs : List ℚ), l.map g = qs.map JSNum.num →
      ∀ a : ℚ, l.foldl (fun s e => jsAdd s (g e)) (JSNum.num a) = JSNum.num (a + qs.sum) := by
  intro l
  induction l with
  | nil =>
      intro qs h a
      cases qs with
      | nil => simp
      | cons q qs' => simp at h
  | cons x t ih =>
      intro qs h a
      cases qs with
      | nil => simp at h
      | cons q qs' =>
          simp only [List.map_cons, List.cons.injEq] at h
          obtain ⟨hx, ht⟩ := h
          rw [List.foldl_cons, hx, jsAdd_num, ih qs' ht (a + q), List.sum_cons]
          congr 1
          ring

/-- calculateMonthlyPayment succeeds whenever the P&I computation does. -/
theorem calculateMonthlyPayment_ok {la ar : JSNum} {n : ℕ} {pay : JSNum}
    (tax ins pmi hoa : JSNum)
    (hpay : calculatePrincipalAndInterest la ar n = .ok pay) :
    ∃ mp, calculateMonthlyPayment la ar n tax ins pmi hoa = .ok mp := by
  simp only [calculateMonthlyPayment, hpay]
  exact ⟨_, rfl⟩

/-- calculateAPR always succeeds on validated finite inputs: past validation
the Newton-Raphson loop is total and its (possibly NaN) result goes through
roundToCents. -/
theorem calculateAPR_ok {P r : ℚ} (n : ℕ) (fees : JSNum) (hP : 0 ≤ P) (hr : 0 ≤ r)
    (hn : 1 ≤ n) :
    ∃ v, calculateAPR (JSNum.num P) (JSNum.num r) n fees = .ok v := by
  simp only [calculateAPR, validateNumber_ok hP, validateNumber_ok hr]
  by_cases hf : (jsFalsy fees || fees == JSNum.num 0) = true
  · rw [if_pos hf]
    exact ⟨_, rfl⟩
  · rw [if_neg hf]
    obtain ⟨y, hy⟩ := calculatePrincipalAndInterest_ok n hP hr hn
    rw [hy]
    exact ⟨_, rfl⟩

/-- The reduce-based selection over a summary list returns the first element
attaining the minimum `totals.totalCost`, provided all the costs are finite:
elements strictly before the result have strictly larger cost, and no
element anywhere has smaller cost. -/
theorem foldl_best_first_min :
    ∀ (t : List LoanSummary) (b : LoanSummary) (qb : ℚ),
      b.totals.totalCost = JSNum.num qb →
      (∀ u ∈ t, ∃ qu : ℚ, u.totals.totalCost = JSNum.num qu) →
      ∃ (t₁ t₂ : List LoanSummary) (x : LoanSummary) (qx : ℚ),
        b :: t = t₁ ++ x :: t₂ ∧
        t.foldl (fun best current =>
          if jsLt current.totals.totalCost best.totals.totalCost then current else best) b = x ∧
        x.totals.totalCost = JSNum.num qx ∧
        (∀ u ∈ t₁, ∃ qu : ℚ, u.totals.totalCost = JSNum.num qu ∧ qx < qu) ∧
        (∀ u ∈ b :: t, ∃ qu : ℚ, u.totals.totalCost = JSNum.num qu ∧ qx ≤ qu) := by
  intro t
  induction t with
  | nil =>
      intro b qb hb _
      refine ⟨[], [], b, qb, rfl, rfl, hb, by simp, ?_⟩
      intro u hu
      rw [List.mem_singleton] at hu
      subst hu
      exact ⟨qb, hb, le_refl _⟩
  | cons s t' ih =>
      intro b qb hb hall
      obtain ⟨qs, hqs⟩ := hall s (List.mem_cons_self s t')
      have hall' : ∀ u ∈ t', ∃ qu : ℚ, u.totals.totalCost = JSNum.num qu :=
        fun u hu => hall u (List.mem_cons_of_mem s hu)
      by_cases hlt : qs < qb
      · have hsel : (if jsLt s.totals.totalCost b.totals.totalCost then s else b) = s := by
          rw [hqs, hb, jsLt_num, decide_eq_true hlt, if_pos rfl]
        obtain ⟨t₁', t₂', x, qx, hdec, hres, hx, hbefore, hmin⟩ := ih s qs hqs hall'
        have hxs : qx ≤ qs := by
          obtain ⟨qu, hqu, hle⟩ := hmin s (List.mem_cons_self s t')
          rw [hqs] at hqu
          rw [← num_inj hqu] at hle
          exact hle
        refine ⟨b :: t₁', t₂', x, qx, ?_, ?_, hx, ?_, ?_⟩
        · rw [List.cons_append, ← hdec]
        · rw [List.foldl_cons, hsel, hres]
        · intro u hu
          rcases List.mem_cons.mp hu with h | h
          · subst h
            exact ⟨qb, hb, lt_of_le_of_lt hxs hlt⟩
          · exact hbefore u h
        · intro u hu
          rcases List.mem_cons.mp hu with h | h
          · subst h
            exact ⟨qb, hb, le_of_lt (lt_of_le_of_lt hxs hlt)⟩
          · exact hmin u h
      · have hsel : (if jsLt s.totals.totalCost b.totals.totalCost then s else b) = b := by
          rw [hqs, hb, jsLt_num, decide_eq_false hlt, if_neg (by simp)]
        obtain ⟨t₁', t₂', x, qx, hdec, hres, hx, hbefore, hmin⟩ := ih b qb hb hall'
        have hqbqs : qb ≤ qs := not_lt.mp hlt
        cases t₁' with
        | nil =>
            simp only [List.nil_append, List.cons.injEq] at hdec
            obtain ⟨hbx, ht₂'⟩ := hdec
            have hqxqb : qx = qb := by
              rw [← hbx, hb] at hx
              exact (num_inj hx).symm
            refine ⟨[], s :: t', x, qx, ?_, ?_, hx, by simp, ?_⟩
            · rw [List.nil_append, hbx]
            · rw [List.foldl_cons, hsel, hres]
            · intro u hu
              rcases List.mem_cons.mp hu with h | h
              · subst h
                exact ⟨qb, hb, le_of_eq hqxqb⟩
              · rcases List.mem_cons.mp h with h2 | h2
                · subst h2
                  exact ⟨qs, hqs, by rw [hqxqb]; exact hqbqs⟩
                · exact hmin u (List.mem_cons_of_mem b h2)
        | cons h₁ t₁'' =>
            simp only [List.cons_append, List.cons.injEq] at hdec
            obtain ⟨hbh₁, ht'⟩ := hdec
            have hqxqb : qx < qb := by
              obtain ⟨qu, hqu, hltu⟩ := hbefore h₁ (List.mem_cons_self h₁ t₁'')
              rw [← hbh₁, hb] at hqu
              rw [← num_inj hqu] at hltu
              exact hltu
            refine ⟨b :: s :: t₁'', t₂', x, qx, ?_, ?_, hx, ?_, ?_⟩
            · rw [List.cons_append, List.cons_append, ← ht']
            · rw [List.foldl_cons, hsel, hres]
            · intro u hu
              rcases List.mem_cons.mp hu with h | h
              · subst h
                exact ⟨qb, hb, hqxqb⟩
              · rcases List.mem_cons.mp h with h2 | h2
                · subst h2
                  exact ⟨qs, hqs, lt_of_lt_of_le hqxqb hqbqs⟩
                · exact hbefore u (List.mem_cons_of_mem h₁ h2)
            · intro u hu
              rcases List.mem_cons.mp hu with h | h
              · rw [h]
                exact hmin b (List.mem_cons_self b t')
              · rcases List.mem_cons.mp h with h2 | h2
                · subst h2
                  exact ⟨qs, hqs, le_of_lt (lt_of_lt_of_le hqxqb hqbqs)⟩
                · exact hmin u (List.mem_cons_of_mem b h2)

set_option maxRecDepth 100000

/-- C1 (amended): for every valid input (principal > 0, rate ≥ 0,
termMonths ≥ 1) the schedule is returned, is nonempty, and its last entry's
remainingBalance is exactly 0; the remainingBalance sequence is monotonically
non-increasing provided the rounded monthly payment is at least the rounded
interest on principal plus half a cent (so that the payment covers every
period's interest).  Without that proviso cumulative rounding can leave the
payment a cent short of a period's interest and the balance grows, see the
counterexample. -/
theorem C1_amended (P r : ℚ) (n : ℕ) (hP : 0 < P) (hr : 0 ≤ r) (hn : 1 ≤ n) :
    (∃ l, generateAmortizationSchedule (JSNum.num P) (JSNum.num r) n = .ok l ∧ l ≠ [] ∧
      (l.getLast?).map Entry.remainingBalance = some (JSNum.num 0)) ∧
    (∀ m : ℚ,
      calculatePrincipalAndInterest (JSNum.num P) (JSNum.num r) n = .ok (JSNum.num m) →
      roundQ ((P + 1 / 200) * (r / 100 / 12)) ≤ m →
      ∃ (l : List Entry) (bs : List ℚ),
        generateAmortizationSchedule (JSNum.num P) (JSNum.num r) n = .ok l ∧
        l.map Entry.remainingBalance = bs.map JSNum.num ∧
        bs.Chain' (fun x y => y ≤ x)) :=
  ⟨gen_last_zero hP.le hr hn, fun _ hmp hcov => gen_chain hP.le hr hn hmp hcov⟩

/-- C1 counterexample: at the valid input principal 1005.4862, rate 49.2%,
360 months, the code returns a schedule whose remainingBalance increases
from entry 1 (1005.49) to entry 2 (1005.50) — the rounded payment 41.22
equals the first period's rounded interest but is a cent below the second
period's — refuting the claim that the sequence is always monotonically
non-increasing. -/
theorem C1_counterexample :
    ((generateAmortizationSchedule (JSNum.num (10054862 / 10000)) (JSNum.num (246 / 5))
        360).toOption.bind (fun l => l.get? 0)).map Entry.remainingBalance =
      some (JSNum.num (100549 / 100)) ∧
    ((generateAmortizationSchedule (JSNum.num (10054862 / 10000)) (JSNum.num (246 / 5))
        360).toOption.bind (fun l => l.get? 1)).map Entry.remainingBalance =
      some (JSNum.num (100550 / 100)) ∧
    ¬((100550 / 100 : ℚ) ≤ 100549 / 100) :=
  ⟨by with_unfolding_all rfl, by with_unfolding_all rfl, by norm_num⟩

/-- C1 witness: the amended theorem applied at principal 1200, rate 12%,
12 months, where the computed payment 106.62 covers the interest bound
12.00, giving a non-increasing schedule ending at balance 0. -/
theorem C1_amended_witness :
    (0 < (1200 : ℚ)) ∧ (0 ≤ (12 : ℚ)) ∧ ((1 : ℕ) ≤ 12) ∧
    (∃ (l : List Entry) (bs : List ℚ),
      generateAmortizationSchedule (JSNum.num 1200) (JSNum.num 12) 12 = .ok l ∧
      l.map Entry.remainingBalance = bs.map JSNum.num ∧
      bs.Chain' (fun x y => y ≤ x)) ∧
    (∃ l, generateAmortizationSchedule (JSNum.num 1200) (JSNum.num 12) 12 = .ok l ∧ l ≠ [] ∧
      (l.getLast?).map Entry.remainingBalance = some (JSNum.num 0)) := by
  have h := C1_amended 1200 12 12 (by norm_num) (by norm_num) (by norm_num)
  refine ⟨by norm_num, by norm_num, by norm_num, ?_, h.1⟩
  exact h.2 (5331 / 50) (by with_unfolding_all rfl) (by with_unfolding_all decide)

/-- C2: contrary to the claim, degenerate inputs are not all rejected with a
typed invalid-parameter error: a zero principal yields 0 silently, a zero
term yields Infinity (division by zero in the zero-rate branch passes
through roundToCents), and a rate overflowing the annuity power yields the
NaN of Infinity/Infinity, which roundToCents converts to a silent 0. -/
theorem C2_code_behavior :
    calculatePrincipalAndInterest (JSNum.num 0) (JSNum.num 5) 360 = .ok (JSNum.num 0) ∧
    calculatePrincipalAndInterest (JSNum.num 1000) (JSNum.num 0) 0 = .ok (JSNum.inf true) ∧
    calculatePrincipalAndInterest (JSNum.num 1000)
      (JSNum.num 1000000000000000000000000000000) 12 = .ok (JSNum.num 0) :=
  ⟨by with_unfolding_all rfl, by with_unfolding_all rfl, by with_unfolding_all rfl⟩

/-- C3: contrary to the claim, negative amortization is not detected: at
principal 1200, rate 100%, 360 months the rounded payment (100.00) equals
the first period's interest-only portion (100.00), yet the code returns a
schedule (no typed error) whose first two entries have principal portion 0
and an unchanged balance of 1200. -/
theorem C3_code_behavior :
    calculatePrincipalAndInterest (JSNum.num 1200) (JSNum.num 100) 360 =
      .ok (JSNum.num 100) ∧
    ((generateAmortizationSchedule (JSNum.num 1200) (JSNum.num 100) 360).toOption.bind
      (fun l => l.get? 0)).map
        (fun e => (e.principalPayment, e.interestPayment, e.remainingBalance)) =
      some (JSNum.num 0, JSNum.num 100, JSNum.num 1200) ∧
    ((generateAmortizationSchedule (JSNum.num 1200) (JSNum.num 100) 360).toOption.bind
      (fun l => l.get? 1)).map
        (fun e => (e.principalPayment, e.interestPayment, e.remainingBalance)) =
      some (JSNum.num 0, JSNum.num 100, JSNum.num 1200) :=
  ⟨by with_unfolding_all rfl, by with_unfolding_all rfl, by with_unfolding_all rfl⟩

/-- C4: contrary to the claim, when the Newton-Raphson iteration degenerates
the solver returns a plain number with no convergence flag or typed error:
at a 0% nominal rate with positive fees the present-value expression is 0/0
= NaN on the first iteration, NaN propagates through all 100 iterations, and
roundToCents converts the final NaN to a silent 0. -/
theorem C4_code_behavior :
    calculateAPR (JSNum.num 100000) (JSNum.num 0) 360 (JSNum.num 5000) =
      .ok (JSNum.num 0) := by
  with_unfolding_all rfl

/-- C5 (amended): with zero fees calculateAPR returns the nominal rate
rounded to two decimals (`roundToCents`), which equals the nominal rate
exactly precisely when that rate is a whole number of hundredths. -/
theorem C5_amended (P r : ℚ) (n : ℕ) (hP : 0 ≤ P) (hr : 0 ≤ r) :
    calculateAPR (JSNum.num P) (JSNum.num r) n (JSNum.num 0) =
      .ok (JSNum.num (roundQ r)) ∧
    (isCent r → roundQ r = r) := by
  refine ⟨?_, fun h => roundQ_eq_self h⟩
  simp only [calculateAPR, validateNumber_ok hP, validateNumber_ok hr]
  have hcond : (jsFalsy (JSNum.num 0) || (JSNum.num 0 == JSNum.num 0)) = true := by
    simp [jsFalsy]
  rw [if_pos hcond, roundToCents_num]

/-- C5 counterexample: at nominal rate 6.125% with zero fees the code
returns 6.13, not the unchanged nominal rate, refuting exact equality. -/
theorem C5_counterexample :
    calculateAPR (JSNum.num 100000) (JSNum.num (49 / 8)) 360 (JSNum.num 0) =
      .ok (JSNum.num (613 / 100)) ∧ (613 / 100 : ℚ) ≠ 49 / 8 :=
  ⟨by with_unfolding_all rfl, by norm_num⟩

/-- C5 witness: the amended theorem at rate 6.5% (a whole number of
hundredths), where the APR equals the nominal rate exactly. -/
theorem C5_amended_witness :
    (0 ≤ (100000 : ℚ)) ∧ (0 ≤ (13 / 2 : ℚ)) ∧
    calculateAPR (JSNum.num 100000) (JSNum.num (13 / 2)) 360 (JSNum.num 0) =
      .ok (JSNum.num (13 / 2)) := by
  refine ⟨by norm_num, by norm_num, ?_⟩
  rw [(C5_amended 100000 (13 / 2) 360 (by norm_num) (by norm_num)).1]
  with_unfolding_all rfl

/-- C6: for every valid input, the summary's totals.totalPayments (the
second, surviving assignment of the duplicated key) equals the sum of
paymentAmount over the full amortization schedule exactly, and that sum
matches principal plus the summary's totalInterest to within one cent. -/
theorem C6_totalPayments (P r : ℚ) (n : ℕ) (tax ins pmi hoa fees : JSNum)
    (hP : 0 < P) (hr : 0 ≤ r) (hn : 1 ≤ n) :
    ∃ (s : LoanSummary) (l : List Entry) (q qi : ℚ),
      getLoanSummary (JSNum.num P) (JSNum.num r) n tax ins pmi hoa fees = .ok s ∧
      generateAmortizationSchedule (JSNum.num P) (JSNum.num r) n = .ok l ∧
      l.foldl (fun a e => jsAdd a e.paymentAmount) (JSNum.num 0) = JSNum.num q ∧
      s.totals.totalPayments = JSNum.num q ∧
      s.totals.totalInterest = JSNum.num qi ∧
      |q - (P + qi)| ≤ 1 / 100 := by
  obtain ⟨l, ps, is, pa, hgen, hne, hmp, hmi, hma, hps, hpa, hisc, hpac⟩ :=
    gen_sums hP.le hr hn
  obtain ⟨y, hy⟩ := calculatePrincipalAndInterest_ok n hP.le hr hn
  obtain ⟨mp, hmpay⟩ := calculateMonthlyPayment_ok tax ins pmi hoa hy
  obtain ⟨v, hapr⟩ := calculateAPR_ok n (jsOr0 fees) hP.le hr hn
  have hsum_pay : l.foldl (fun a e => jsAdd a e.paymentAmount) (JSNum.num 0) =
      JSNum.num pa.sum := by
    have h := foldl_jsAdd (fun e => e.paymentAmount) l pa hma 0
    rw [zero_add] at h
    exact h
  have hsum_int : l.foldl (fun a e => jsAdd a e.interestPayment) (JSNum.num 0) =
      JSNum.num is.sum := by
    have h := foldl_jsAdd (fun e => e.interestPayment) l is hmi 0
    rw [zero_add] at h
    exact h
  have hsummary : ∃ s,
      getLoanSummary (JSNum.num P) (JSNum.num r) n tax ins pmi hoa fees = .ok s ∧
      s.totals.totalPayments =
        roundToCents (l.foldl (fun a e => jsAdd a e.paymentAmount) (JSNum.num 0)) ∧
      s.totals.totalInterest =
        roundToCents (l.foldl (fun a e => jsAdd a e.interestPayment) (JSNum.num 0)) := by
    simp only [getLoanSummary, hmpay, hgen, hapr]
    exact ⟨_, rfl, rfl, rfl⟩
  obtain ⟨s, hs, hsp, hsi⟩ := hsummary
  refine ⟨s, l, pa.sum, is.sum, hs, hgen, hsum_pay, ?_, ?_, hpa⟩
  · rw [hsp, hsum_pay, roundToCents_num, roundQ_eq_self (isCent_sum hpac)]
  · rw [hsi, hsum_int, roundToCents_num, roundQ_eq_self (isCent_sum hisc)]

/-- C6 witness: the theorem applied at principal 1200, rate 12%, 12 months
with no recurring costs and no fees. -/
theorem C6_witness :
    (0 < (1200 : ℚ)) ∧ (0 ≤ (12 : ℚ)) ∧ ((1 : ℕ) ≤ 12) ∧
    (∃ (s : LoanSummary) (l : List Entry) (q qi : ℚ),
      getLoanSummary (JSNum.num 1200) (JSNum.num 12) 12 (JSNum.num 0) (JSNum.num 0)
        (JSNum.num 0) (JSNum.num 0) (JSNum.num 0) = .ok s ∧
      generateAmortizationSchedule (JSNum.num 1200) (JSNum.num 12) 12 = .ok l ∧
      l.foldl (fun a e => jsAdd a e.paymentAmount) (JSNum.num 0) = JSNum.num q ∧
      s.totals.totalPayments = JSNum.num q ∧
      s.totals.totalInterest = JSNum.num qi ∧
      |q - (1200 + qi)| ≤ 1 / 100) :=
  ⟨by norm_num, by norm_num, by norm_num,
    C6_totalPayments 1200 12 12 (JSNum.num 0) (JSNum.num 0) (JSNum.num 0) (JSNum.num 0)
      (JSNum.num 0) (by norm_num) (by norm_num) (by norm_num)⟩

/-- C7: for every valid input the sum of principalPayment over the returned
schedule equals the principal to within one cent per entry (the code's only
inexactness is the sub-half-cent first-period rounding when the principal is
not a whole number of cents). -/
theorem C7_principal_conservation (P r : ℚ) (n : ℕ) (hP : 0 < P) (hr : 0 ≤ r) (hn : 1 ≤ n) :
    ∃ (l : List Entry) (ps : List ℚ),
      generateAmortizationSchedule (JSNum.num P) (JSNum.num r) n = .ok l ∧
      1 ≤ l.length ∧
      l.map Entry.principalPayment = ps.map JSNum.num ∧
      |ps.sum - P| ≤ (l.length : ℚ) * (1 / 100) := by
  obtain ⟨l, ps, is, pa, hgen, hne, hmp, hmi, hma, hps, hpa, hisc, hpac⟩ :=
    gen_sums hP.le hr hn
  have hlen : 1 ≤ l.length := List.length_pos.mpr hne
  have hlenq : (1 : ℚ) ≤ (l.length : ℚ) := by exact_mod_cast hlen
  refine ⟨l, ps, hgen, hlen, hmp, ?_⟩
  calc |ps.sum - P| ≤ 1 / 100 := hps
    _ = 1 * (1 / 100) := by ring
    _ ≤ (l.length : ℚ) * (1 / 100) := by
        exact mul_le_mul_of_nonneg_right hlenq (by norm_num)

/-- C7 witness: the theorem applied at principal 1200, rate 12%,
12 months. -/
theorem C7_witness :
    (0 < (1200 : ℚ)) ∧ (0 ≤ (12 : ℚ)) ∧ ((1 : ℕ) ≤ 12) ∧
    (∃ (l : List Entry) (ps : List ℚ),
      generateAmortizationSchedule (JSNum.num 1200) (JSNum.num 12) 12 = .ok l ∧
      1 ≤ l.length ∧
      l.map Entry.principalPayment = ps.map JSNum.num ∧
      |ps.sum - 1200| ≤ (l.length : ℚ) * (1 / 100)) :=
  ⟨by norm_num, by norm_num, by norm_num,
    C7_principal_conservation 1200 12 12 (by norm_num) (by norm_num) (by norm_num)⟩

/-- C8: with a zero annual rate the payment is computed by the explicit
zero-rate branch as the principal divided by the number of monthly payments,
rounded to cents. -/
theorem C8_zero_rate (P : ℚ) (n : ℕ) (hP : 0 < P) (hn : 1 ≤ n) :
    calculatePrincipalAndInterest (JSNum.num P) (JSNum.num 0) n =
      .ok (JSNum.num (roundQ (P / (n : ℚ)))) := by
  have hn0 : ((n : ℚ)) ≠ 0 := by
    have h : (0 : ℚ) < (n : ℚ) := by exact_mod_cast hn
    linarith
  simp only [calculatePrincipalAndInterest, validateNumber_ok hP.le,
    validateNumber_ok (le_refl (0 : ℚ))]
  rw [if_pos trivial, jsDiv_num P hn0, roundToCents_num]

/-- C8 witness: the theorem applied at principal 100000 over 120 months,
yielding the straight-line payment 833.33. -/
theorem C8_witness :
    (0 < (100000 : ℚ)) ∧ ((1 : ℕ) ≤ 120) ∧
    calculatePrincipalAndInterest (JSNum.num 100000) (JSNum.num 0) 120 =
      .ok (JSNum.num (83333 / 100)) := by
  refine ⟨by norm_num, by norm_num, ?_⟩
  rw [C8_zero_rate 100000 120 (by norm_num) (by norm_num)]
  with_unfolding_all rfl

/-- C9: for any list of at least two summaries with finite total costs,
findBestLoan returns the first element attaining the minimal
totals.totalCost: every element strictly before the result has strictly
greater cost, and no element has smaller cost; the selection depends only on
input order. -/
theorem C9_tie_break (l : List LoanSummary) (hlen : 2 ≤ l.length)
    (hall : ∀ u ∈ l, ∃ qu : ℚ, u.totals.totalCost = JSNum.num qu) :
    ∃ (t₁ t₂ : List LoanSummary) (x : LoanSummary) (qx : ℚ),
      l = t₁ ++ x :: t₂ ∧
      findBestLoan l = some x ∧
      x.totals.totalCost = JSNum.num qx ∧
      (∀ u ∈ t₁, ∃ qu : ℚ, u.totals.totalCost = JSNum.num qu ∧ qx < qu) ∧
      (∀ u ∈ l, ∃ qu : ℚ, u.totals.totalCost = JSNum.num qu ∧ qx ≤ qu) := by
  cases l with
  | nil => simp at hlen
  | cons b t =>
      obtain ⟨qb, hqb⟩ := hall b (List.mem_cons_self b t)
      obtain ⟨t₁, t₂, x, qx, hdec, hres, hx, hbefore, hmin⟩ :=
        foldl_best_first_min t b qb hqb (fun u hu => hall u (List.mem_cons_of_mem b hu))
      refine ⟨t₁, t₂, x, qx, hdec, ?_, hx, hbefore, hmin⟩
      simp only [findBestLoan]
      rw [hres]

/-- Helper summary for the C9 witness: all fields zero except the total
cost and a distinguishing marker. -/
def testSummary (c mark : ℚ) : LoanSummary :=
  { loanDetails :=
      { loanAmount := JSNum.num 0, interestRate := JSNum.num 0, apr := JSNum.num 0,
        termMonths := 0, fees := JSNum.num 0 }
    monthlyPayment :=
      { principalAndInterest := JSNum.num 0, propertyTax := JSNum.num 0,
        insurance := JSNum.num 0, pmi := JSNum.num 0, hoaFees := JSNum.num 0,
        totalMonthlyPayment := JSNum.num 0 }
    totals :=
      { totalPayments := JSNum.num 0, totalInterest := JSNum.num 0,
        totalPrincipal := JSNum.num 0, totalCost := JSNum.num c }
    interestPercentage := JSNum.num mark
    firstPaymentBreakdown := none }

/-- C9 witness: two summaries with the engineered tied total cost 500000;
the selection returns the first of them, and the theorem applies. -/
theorem C9_witness :
    (2 ≤ ([testSummary 500000 1, testSummary 500000 2] : List LoanSummary).length) ∧
    findBestLoan [testSummary 500000 1, testSummary 500000 2] =
      some (testSummary 500000 1) ∧
    (∃ (t₁ t₂ : List LoanSummary) (x : LoanSummary) (qx : ℚ),
      ([testSummary 500000 1, testSummary 500000 2] : List LoanSummary) = t₁ ++ x :: t₂ ∧
      findBestLoan [testSummary 500000 1, testSummary 500000 2] = some x ∧
      x.totals.totalCost = JSNum.num qx ∧
      (∀ u ∈ t₁, ∃ qu : ℚ, u.totals.totalCost = JSNum.num qu ∧ qx < qu) ∧
      (∀ u ∈ ([testSummary 500000 1, testSummary 500000 2] : List LoanSummary),
        ∃ qu : ℚ, u.totals.totalCost = JSNum.num qu ∧ qx ≤ qu)) := by
  have hall : ∀ u ∈ ([testSummary 500000 1, testSummary 500000 2] : List LoanSummary),
      ∃ qu : ℚ, u.totals.totalCost = JSNum.num qu := by
    intro u hu
    rcases List.mem_cons.mp hu with h | h
    · exact ⟨500000, by rw [h]; rfl⟩
    · rcases List.mem_cons.mp h with h2 | h2
      · exact ⟨500000, by rw [h2]; rfl⟩
      · simp at h2
  exact ⟨by norm_num, by with_unfolding_all rfl,
    C9_tie_break _ (by norm_num) hall⟩

/-- C10: roundToCents maps NaN to the numeric value 0, and consequently a
NaN arising inside a calculation surfaces at the public interface as 0: with
an overflowing rate the annuity formula produces NaN and the payment
returned is the number 0 rather than NaN or an error. -/
theorem C10_nan_to_zero :
    roundToCents JSNum.nan = JSNum.num 0 ∧
    calculatePrincipalAndInterest (JSNum.num 2000)
      (JSNum.num 1000000000000000000000000000000) 24 = .ok (JSNum.num 0) :=
  ⟨rfl, by with_unfolding_all rfl⟩
